import Mathlib

/-!
Verification of the text-position algebra (`solidlsp/ls_utils.py`, class
`TextUtils`), the symbolic code editor (`serena/code_editor.py`, class
`CodeEditor`), and the symbol-kind parser (`serena/tools/symbol_tools.py`,
`_parse_symbol_kinds`).

Texts are modelled as `List Char`; Python exceptions are modelled by
`Except TextErr`, with distinct constructors for Python's built-in
`IndexError` (raised by out-of-bounds character indexing) and the
domain error `InvalidTextLocationError`.
-/

set_option autoImplicit false

namespace Serena

/-- A Python exception raised by the text utilities: either a plain
`IndexError` from character indexing or the domain error
`InvalidTextLocationError`. -/
inductive TextErr where
  | indexError
  | invalidTextLocation
deriving DecidableEq, Repr

instance {ε α : Type} [DecidableEq ε] [DecidableEq α] : DecidableEq (Except ε α)
  | .ok a, .ok b =>
    if h : a = b then .isTrue (by rw [h]) else .isFalse (by intro hh; injection hh; contradiction)
  | .ok _, .error _ => .isFalse (by intro h; cases h)
  | .error _, .ok _ => .isFalse (by intro h; cases h)
  | .error e, .error f =>
    if h : e = f then .isTrue (by rw [h]) else .isFalse (by intro hh; injection hh; contradiction)

/-- Loop of `TextUtils.get_line_col_from_index`: walks `index` characters
from the front of `text`, incrementing the line and resetting the column
on each newline, otherwise incrementing the column. Accessing a character
past the end of the text is an `IndexError`. -/
def getLineColLoop : List Char → Nat → Nat → Nat → Except TextErr (Nat × Nat)
  | _, 0, l, c => .ok (l, c)
  | [], _ + 1, _, _ => .error .indexError
  | ch :: rest, n + 1, l, c =>
    if ch = '\n' then getLineColLoop rest n (l + 1) 0
    else getLineColLoop rest n l (c + 1)

/-- `TextUtils.get_line_col_from_index(text, index)`. -/
def get_line_col_from_index (text : List Char) (index : Nat) : Except TextErr (Nat × Nat) :=
  getLineColLoop text index 0 0

/-- Loop of `TextUtils.get_index_from_line_col`: advances through the text,
counting down one line per newline encountered, accumulating the index;
running out of text while lines remain raises `InvalidTextLocationError`. -/
def getIndexLoop : List Char → Nat → Nat → Except TextErr Nat
  | _, 0, idx => .ok idx
  | [], _ + 1, _ => .error .invalidTextLocation
  | ch :: rest, line + 1, idx =>
    if ch = '\n' then getIndexLoop rest line (idx + 1)
    else getIndexLoop rest (line + 1) (idx + 1)

/-- `TextUtils.get_index_from_line_col(text, line, col)`: walks `line`
newlines forward and then adds `col` without bounds-checking. -/
def get_index_from_line_col (text : List Char) (line col : Nat) : Except TextErr Nat :=
  (getIndexLoop text line 0).map (fun idx => idx + col)

/-- `text.split("\n")`: the list of lines of a text, where only `'\n'`
separates lines.  Always non-empty; `length = count of newlines + 1`. -/
def linesOf : List Char → List (List Char)
  | [] => [[]]
  | ch :: rest =>
    if ch = '\n' then [] :: linesOf rest
    else (ch :: (linesOf rest).headI) :: (linesOf rest).tail

/-- `len(text.split("\n")[-1])`: the length of the last line of a text. -/
def lastLineLen (t : List Char) : Nat :=
  ((linesOf t).getLastD []).length

/-- `TextUtils._get_updated_position_from_line_and_column_and_edit(l, c, text_to_be_inserted)`:
the cursor position after inserting `ins` at `(l, c)`. -/
def _get_updated_position_from_line_and_column_and_edit (l c : Nat) (ins : List Char) :
    Nat × Nat :=
  let numNewlines := ins.count '\n'
  if numNewlines > 0 then (l + numNewlines, lastLineLen ins)
  else (l, c + ins.length)

/-- `TextUtils.delete_text_between_positions(text, start_line, start_col, end_line, end_col)`:
resolves both positions to indices and slices the range out, returning the
modified text together with the deleted text (Python slices clamp, which
`List.take`/`List.drop` mirror). -/
def delete_text_between_positions (text : List Char) (startLine startCol endLine endCol : Nat) :
    Except TextErr (List Char × List Char) := do
  let delStartIdx ← get_index_from_line_col text startLine startCol
  let delEndIdx ← get_index_from_line_col text endLine endCol
  let deletedText := (text.take delEndIdx).drop delStartIdx
  let newText := text.take delStartIdx ++ text.drop delEndIdx
  return (newText, deletedText)

/-- `TextUtils.insert_text_at_position(text, line, col, text_to_be_inserted)`:
inserts at the resolved index; if resolution fails with
`InvalidTextLocationError` and the position is exactly one line past the
last line with column 0, appends at the end with a newline separator,
otherwise re-raises. -/
def insert_text_at_position (text : List Char) (line col : Nat) (ins : List Char) :
    Except TextErr (List Char × Nat × Nat) :=
  match get_index_from_line_col text line col with
  | .ok changeIndex =>
    let newText := text.take changeIndex ++ ins ++ text.drop changeIndex
    let (newL, newC) := _get_updated_position_from_line_and_column_and_edit line col ins
    .ok (newText, newL, newC)
  | .error .invalidTextLocation =>
    let numLinesInText := text.count '\n' + 1
    let maxLine := numLinesInText - 1
    if line = maxLine + 1 ∧ col = 0 then
      let ins := '\n' :: ins
      let newText := text.take text.length ++ ins ++ text.drop text.length
      let (newL, newC) := _get_updated_position_from_line_and_column_and_edit line col ins
      .ok (newText, newL, newC)
    else .error .invalidTextLocation
  | .error e => .error e

example : get_line_col_from_index "ab\ncd".toList 4 = .ok (1, 1) := by decide
example : get_line_col_from_index "a\rb".toList 3 = .ok (0, 3) := by decide
example : get_index_from_line_col "ab\ncd".toList 1 1 = .ok 4 := by decide
example : get_index_from_line_col "ab".toList 2 0 = .error .invalidTextLocation := by decide
example : insert_text_at_position "ab".toList 1 0 "xy".toList =
    .ok ("ab\nxy".toList, 2, 2) := by decide
example : delete_text_between_positions "ab\ncd".toList 0 1 1 1 =
    .ok ("ad".toList, "b\nc".toList) := by decide

/-- A zero-based (line, column) position (`serena.symbol.PositionInFile`). -/
structure PositionInFile where
  line : Nat
  col : Nat
deriving DecidableEq, Repr

/-- The data of a resolved symbol that the editor's operations consume:
its body start/end positions and whether its kind requires blank-line
separation from neighbouring definitions
(`Symbol.get_body_start_position_or_raise`, `get_body_end_position_or_raise`,
`is_neighbouring_definition_separated_by_empty_line`). -/
structure SymbolInfo where
  bodyStart : PositionInFile
  bodyEnd : PositionInFile
  sepByEmptyLine : Bool
deriving DecidableEq, Repr

/-- The on-disk file targeted by an edit, together with the number of
write operations performed on it so far. -/
structure FileState where
  disk : List Char
  writes : Nat
deriving DecidableEq, Repr

/-- `CodeEditor._edited_file_context`: opens the file (the buffer is loaded
from disk), runs the edit body on the buffer, and writes the buffer back to
disk exactly once on successful exit of the scope.  If the body raises, the
generator's code after the `yield` never runs, so nothing is written and
the exception propagates. -/
def edited_file_context (st : FileState) (body : List Char → Except TextErr (List Char)) :
    FileState × Option TextErr :=
  match body st.disk with
  | .ok contents => ({ disk := contents, writes := st.writes + 1 }, none)
  | .error e => (st, some e)

/-- Python's `str.strip()` character class (ASCII whitespace). -/
def isPySpace (ch : Char) : Bool :=
  ch = ' ' ∨ ch = '\t' ∨ ch = '\n' ∨ ch = '\r' ∨ ch = '\x0b' ∨ ch = '\x0c'

/-- `body.strip()`: strips whitespace from both ends. -/
def pyStrip (t : List Char) : List Char :=
  ((t.dropWhile isPySpace).reverse.dropWhile isPySpace).reverse

/-- `body.rstrip()`: strips whitespace from the end only. -/
def pyRstrip (t : List Char) : List Char :=
  (t.reverse.dropWhile isPySpace).reverse

/-- `body.lstrip("\r\n")`. -/
def lstripCRLF (t : List Char) : List Char :=
  t.dropWhile fun ch => ch = '\r' ∨ ch = '\n'

/-- `body.rstrip("\r\n")`. -/
def rstripCRLF (t : List Char) : List Char :=
  (t.reverse.dropWhile fun ch => ch = '\r' ∨ ch = '\n').reverse

/-- `CodeEditor._count_leading_newlines`: counts `'\n'` characters in the
leading run of CR/LF characters, skipping over `'\r'`. -/
def _count_leading_newlines : List Char → Nat
  | [] => 0
  | ch :: rest =>
    if ch = '\n' then _count_leading_newlines rest + 1
    else if ch = '\r' then _count_leading_newlines rest
    else 0

/-- `CodeEditor._count_trailing_newlines`: the leading count of the
reversed text. -/
def _count_trailing_newlines (t : List Char) : Nat :=
  _count_leading_newlines t.reverse

/-- `CodeEditor.replace_body`: resolve the symbol, then within the edited-file
scope strip the new body of all surrounding whitespace, delete the old body
range and insert the stripped body at the body start position. -/
def replace_body (st : FileState) (resolve : Except TextErr SymbolInfo) (body : List Char) :
    FileState × Option TextErr :=
  match resolve with
  | .error e => (st, some e)
  | .ok sym =>
    edited_file_context st fun contents => do
      let body := pyStrip body
      let (c1, _) ← delete_text_between_positions contents
        sym.bodyStart.line sym.bodyStart.col sym.bodyEnd.line sym.bodyEnd.col
      let (c2, _, _) ← insert_text_at_position c1 sym.bodyStart.line sym.bodyStart.col body
      return c2

/-- The body-normalization pipeline of `CodeEditor.insert_after_symbol`:
ensure a trailing newline, count and strip leading newlines, prepend
`max(min_empty_lines, original_leading_newlines)` newlines, and normalize
the tail to exactly one trailing newline. -/
def insert_after_symbol_body (sepByEmptyLine : Bool) (body : List Char) : List Char :=
  let body := if body.getLast? = some '\n' then body else body ++ ['\n']
  let originalLeadingNewlines := _count_leading_newlines body
  let body := lstripCRLF body
  let minEmptyLines := if sepByEmptyLine then 1 else 0
  let numLeadingEmptyLines := max minEmptyLines originalLeadingNewlines
  let body :=
    if numLeadingEmptyLines ≠ 0 then List.replicate numLeadingEmptyLines '\n' ++ body else body
  rstripCRLF body ++ ['\n']

/-- `CodeEditor.insert_after_symbol`: resolve the symbol, normalize the body,
and insert it at column 0 of the line following the symbol's body end. -/
def insert_after_symbol (st : FileState) (resolve : Except TextErr SymbolInfo)
    (body : List Char) : FileState × Option TextErr :=
  match resolve with
  | .error e => (st, some e)
  | .ok sym =>
    let line := sym.bodyEnd.line + 1
    let col := 0
    let body := insert_after_symbol_body sym.sepByEmptyLine body
    edited_file_context st fun contents =>
      (insert_text_at_position contents line col body).map fun r => r.1

/-- The body-normalization pipeline of `CodeEditor.insert_before_symbol`:
count trailing empty lines (one less than the trailing newline count, which
Python computes as a possibly negative int), ensure exactly one newline at
the end of the stripped body, then append
`max(min_trailing_empty_lines, original_trailing_empty_lines)` newlines. -/
def insert_before_symbol_body (sepByEmptyLine : Bool) (body : List Char) : List Char :=
  let originalTrailingEmptyLines : Int := (_count_trailing_newlines body : Int) - 1
  let body := pyRstrip body ++ ['\n']
  let minTrailingEmptyLines : Int := if sepByEmptyLine then 1 else 0
  let numTrailingNewlines := max minTrailingEmptyLines originalTrailingEmptyLines
  body ++ List.replicate numTrailingNewlines.toNat '\n'

/-- `CodeEditor.insert_before_symbol`: resolve the symbol, normalize the body,
and insert it at column 0 of the symbol's first body line. -/
def insert_before_symbol (st : FileState) (resolve : Except TextErr SymbolInfo)
    (body : List Char) : FileState × Option TextErr :=
  match resolve with
  | .error e => (st, some e)
  | .ok sym =>
    let line := sym.bodyStart.line
    let col := 0
    let body := insert_before_symbol_body sym.sepByEmptyLine body
    edited_file_context st fun contents =>
      (insert_text_at_position contents line col body).map fun r => r.1

/-- `CodeEditor.insert_at_line`: insert content at `(line, 0)` within the
edited-file scope. -/
def insert_at_line (st : FileState) (line : Nat) (content : List Char) :
    FileState × Option TextErr :=
  edited_file_context st fun contents =>
    (insert_text_at_position contents line 0 content).map fun r => r.1

/-- The pure text transformation of `CodeEditor.delete_lines`: delete the
range from `(start_line, 0)` to `(end_line + 1, 0)`. -/
def delete_lines_text (text : List Char) (startLine endLine : Nat) :
    Except TextErr (List Char) :=
  (delete_text_between_positions text startLine 0 (endLine + 1) 0).map fun r => r.1

/-- `CodeEditor.delete_lines`: delete lines `start_line..end_line` (inclusive)
within the edited-file scope. -/
def delete_lines (st : FileState) (startLine endLine : Nat) : FileState × Option TextErr :=
  edited_file_context st fun contents => delete_lines_text contents startLine endLine

/-- `CodeEditor.delete_symbol`: resolve the symbol and delete exactly its
body range within the edited-file scope. -/
def delete_symbol (st : FileState) (resolve : Except TextErr SymbolInfo) :
    FileState × Option TextErr :=
  match resolve with
  | .error e => (st, some e)
  | .ok sym =>
    edited_file_context st fun contents =>
      (delete_text_between_positions contents
        sym.bodyStart.line sym.bodyStart.col sym.bodyEnd.line sym.bodyEnd.col).map fun r => r.1

/-- Modelled from the spec: the `SymbolKind` enumeration of
`solidlsp.ls_types` is not part of the provided sources; the spec's data
model and the parser's own error message enumerate exactly the kinds
numbered 1 to 26.  A kind is a wrapper around its integer value. -/
structure SymbolKind where
  value : Nat
deriving DecidableEq, Repr

/-- Modelled from the spec: the set of valid enumerated symbol-kind values,
`1..26` (file, module, ..., type-parameter). -/
def symbolKindValid (k : Nat) : Bool :=
  1 ≤ k ∧ k ≤ 26

/-- `_parse_symbol_kinds(kinds, param_name)`: `None` for an empty list,
an invalid-argument error if any value lies outside the enumerated range,
otherwise the values converted to `SymbolKind` in order. -/
def _parse_symbol_kinds (kinds : List Nat) :
    Except String (Option (List SymbolKind)) :=
  if kinds.isEmpty then .ok none
  else
    let invalid := kinds.filter fun k => !(symbolKindValid k)
    if ¬ invalid.isEmpty then
      .error "Invalid values; valid symbol kinds are 1-26"
    else .ok (some (kinds.map SymbolKind.mk))

example : _parse_symbol_kinds [] = .ok none := by decide
example : _parse_symbol_kinds [5, 12] = .ok (some [⟨5⟩, ⟨12⟩]) := by decide
example : (_parse_symbol_kinds [5, 27]).isOk = false := by decide
example : insert_after_symbol_body false "\n\nx".toList = "\n\nx\n".toList := by decide
example : insert_after_symbol_body true "x\r\n\r\n".toList = "\nx\n".toList := by decide
example : insert_after_symbol_body false "\n\n".toList = "\n".toList := by decide
example : insert_before_symbol_body true "x".toList = "x\n\n".toList := by decide

/-- The atomicity contract of an edit call: on successful exit the file is
written exactly once, and on an error before the flush step nothing is
written and the on-disk state is unchanged. -/
def editScopeSpec (st : FileState) (r : FileState × Option TextErr) : Prop :=
  (r.2 = none → r.1.writes = st.writes + 1) ∧ (r.2 ≠ none → r.1 = st)

theorem edited_file_context_scopeSpec (st : FileState)
    (body : List Char → Except TextErr (List Char)) :
    editScopeSpec st (edited_file_context st body) := by
  unfold edited_file_context editScopeSpec
  cases body st.disk <;> simp

theorem resolve_then_scope_scopeSpec (st : FileState) (resolve : Except TextErr SymbolInfo)
    (f : SymbolInfo → List Char → Except TextErr (List Char)) :
    editScopeSpec st
      (match resolve with
       | .error e => (st, some e)
       | .ok sym => edited_file_context st (f sym)) := by
  cases resolve with
  | error e =>
    unfold editScopeSpec
    exact ⟨fun h => absurd h (by simp), fun _ => rfl⟩
  | ok sym => exact edited_file_context_scopeSpec st (f sym)

/-- C1: every symbolic edit call (replace_body, insert_after_symbol,
insert_before_symbol, insert_at_line, delete_lines, delete_symbol) writes
the target file exactly once, on successful exit of the edit scope; if
symbol resolution or any buffer mutation raises before the flush step,
nothing is written and the on-disk content is unchanged. -/
theorem symbolic_edits_write_once_and_discard_on_error
    (st : FileState) (resolve : Except TextErr SymbolInfo) (body content : List Char)
    (line startLine endLine : Nat) :
    editScopeSpec st (replace_body st resolve body) ∧
    editScopeSpec st (insert_after_symbol st resolve body) ∧
    editScopeSpec st (insert_before_symbol st resolve body) ∧
    editScopeSpec st (insert_at_line st line content) ∧
    editScopeSpec st (delete_lines st startLine endLine) ∧
    editScopeSpec st (delete_symbol st resolve) := by
  refine ⟨?_, ?_, ?_, ?_, ?_, ?_⟩
  · exact resolve_then_scope_scopeSpec st resolve _
  · unfold insert_after_symbol
    exact resolve_then_scope_scopeSpec st resolve _
  · unfold insert_before_symbol
    exact resolve_then_scope_scopeSpec st resolve _
  · exact edited_file_context_scopeSpec st _
  · exact edited_file_context_scopeSpec st _
  · exact resolve_then_scope_scopeSpec st resolve _

/-- Witness for C1 at a concrete file state, resolution result and edit
arguments. -/
theorem symbolic_edits_write_once_and_discard_on_error_witness :
    editScopeSpec ⟨"a\nb".toList, 0⟩
        (replace_body ⟨"a\nb".toList, 0⟩ (.ok ⟨⟨0, 0⟩, ⟨0, 1⟩, false⟩) "x".toList) ∧
      editScopeSpec ⟨"a\nb".toList, 0⟩
        (insert_after_symbol ⟨"a\nb".toList, 0⟩ (.ok ⟨⟨0, 0⟩, ⟨0, 1⟩, false⟩) "x".toList) ∧
      editScopeSpec ⟨"a\nb".toList, 0⟩
        (insert_before_symbol ⟨"a\nb".toList, 0⟩ (.ok ⟨⟨0, 0⟩, ⟨0, 1⟩, false⟩) "x".toList) ∧
      editScopeSpec ⟨"a\nb".toList, 0⟩ (insert_at_line ⟨"a\nb".toList, 0⟩ 1 "x".toList) ∧
      editScopeSpec ⟨"a\nb".toList, 0⟩ (delete_lines ⟨"a\nb".toList, 0⟩ 0 0) ∧
      editScopeSpec ⟨"a\nb".toList, 0⟩ (delete_symbol ⟨"a\nb".toList, 0⟩ (.ok ⟨⟨0, 0⟩, ⟨0, 1⟩, false⟩)) :=
  symbolic_edits_write_once_and_discard_on_error
    ⟨"a\nb".toList, 0⟩ (.ok ⟨⟨0, 0⟩, ⟨0, 1⟩, false⟩) "x".toList "x".toList 1 0 0

/-- C8: parsing a list of symbol-kind integers fails if and only if some
value lies outside the enumerated range 1..26; an empty list parses as no
constraint, and an all-valid list is converted to `SymbolKind` values in
order. -/
theorem parse_symbol_kinds_spec (kinds : List Nat) :
    ((∃ s, _parse_symbol_kinds kinds = .error s) ↔ ∃ k ∈ kinds, ¬ symbolKindValid k) ∧
    (kinds = [] → _parse_symbol_kinds kinds = .ok none) ∧
    ((∀ k ∈ kinds, symbolKindValid k) → kinds ≠ [] →
      _parse_symbol_kinds kinds = .ok (some (kinds.map SymbolKind.mk))) := by
  rcases kinds with _ | ⟨k, ks⟩
  · exact ⟨by simp [_parse_symbol_kinds], fun _ => rfl, fun _ h => absurd rfl h⟩
  by_cases hf : ((k :: ks).filter fun x => !(symbolKindValid x)) = []
  · have hok : _parse_symbol_kinds (k :: ks) = .ok (some ((k :: ks).map SymbolKind.mk)) := by
      unfold _parse_symbol_kinds
      simp [hf]
    refine ⟨?_, fun h => absurd h (by simp), fun _ _ => hok⟩
    constructor
    · rintro ⟨s, hs⟩
      rw [hok] at hs
      cases hs
    · rintro ⟨x, hx, hxv⟩
      have hval := List.filter_eq_nil_iff.mp hf x hx
      simp only [Bool.not_eq_true', Bool.not_eq_false] at hval
      exact (hxv hval).elim
  · have herr : _parse_symbol_kinds (k :: ks) =
        .error "Invalid values; valid symbol kinds are 1-26" := by
      unfold _parse_symbol_kinds
      simp [hf, List.isEmpty_iff]
    refine ⟨?_, fun h => absurd h (by simp), fun hall _ => ?_⟩
    · constructor
      · intro _
        obtain ⟨x, hx⟩ := List.exists_mem_of_ne_nil _ hf
        obtain ⟨hxmem, hxval⟩ := List.mem_filter.mp hx
        refine ⟨x, hxmem, ?_⟩
        simp only [Bool.not_eq_true'] at hxval
        simp [hxval]
      · intro _
        exact ⟨_, herr⟩
    · exact absurd (List.filter_eq_nil_iff.mpr fun a ha => by simp [hall a ha]) hf

/-- Witness for C8 at a concrete all-valid, non-empty kind list. -/
theorem parse_symbol_kinds_spec_witness :
    ((∃ s, _parse_symbol_kinds [5, 12] = .error s) ↔ ∃ k ∈ [5, 12], ¬ symbolKindValid k) ∧
    (([5, 12] : List Nat) = [] → _parse_symbol_kinds [5, 12] = .ok none) ∧
    ((∀ k ∈ [5, 12], symbolKindValid k) → ([5, 12] : List Nat) ≠ [] →
      _parse_symbol_kinds [5, 12] = .ok (some ([5, 12].map SymbolKind.mk))) :=
  parse_symbol_kinds_spec [5, 12]

/-- The step of the `get_line_col_from_index` loop as a fold step. -/
def stepLC (p : Nat × Nat) (ch : Char) : Nat × Nat :=
  if ch = '\n' then (p.1 + 1, 0) else (p.1, p.2 + 1)

/-- The number of characters in `t` after its last `'\n'` (all of `t` when
it has no newline). -/
def sinceLastNewline (t : List Char) : Nat :=
  (t.reverse.takeWhile fun ch => ch != '\n').length

theorem takeWhile_append_of_mem_false {α : Type} (p : α → Bool) (a b : List α)
    (h : ∃ x ∈ a, p x = false) : (a ++ b).takeWhile p = a.takeWhile p := by
  induction a with
  | nil => obtain ⟨x, hx, _⟩ := h; cases hx
  | cons c a ih =>
    by_cases hc : p c = true
    · obtain ⟨x, hx, hpx⟩ := h
      rcases List.mem_cons.mp hx with rfl | hx
      · rw [hc] at hpx; cases hpx
      · simp only [List.cons_append, List.takeWhile_cons, hc, if_true]
        rw [ih ⟨x, hx, hpx⟩]
    · rw [Bool.not_eq_true] at hc
      simp [List.takeWhile_cons, hc]

theorem takeWhile_append_of_all_true {α : Type} (p : α → Bool) (a b : List α)
    (h : ∀ x ∈ a, p x = true) : (a ++ b).takeWhile p = a ++ b.takeWhile p := by
  induction a with
  | nil => rfl
  | cons c a ih =>
    have hc := h c (List.mem_cons_self c a)
    simp only [List.cons_append, List.takeWhile_cons, hc, if_true]
    rw [ih fun x hx => h x (List.mem_cons_of_mem c hx)]

theorem sinceLastNewline_of_no_newline (t : List Char) (h : t.count '\n' = 0) :
    sinceLastNewline t = t.length := by
  unfold sinceLastNewline
  have hnot : '\n' ∉ t := List.count_eq_zero.mp h
  rw [List.takeWhile_eq_self_iff.mpr, List.length_reverse]
  intro x hx
  have : x ∈ t := List.mem_reverse.mp hx
  simp only [bne_iff_ne, ne_eq]
  intro heq
  exact hnot (heq ▸ this)

theorem foldl_stepLC (t : List Char) : ∀ l c, t.foldl stepLC (l, c) =
    (l + t.count '\n',
      if t.count '\n' = 0 then c + t.length else sinceLastNewline t) := by
  induction t with
  | nil => intro l c; simp
  | cons ch r ih =>
    intro l c
    by_cases hch : ch = '\n'
    · subst hch
      rw [List.foldl_cons]
      have hstep : stepLC (l, c) '\n' = (l + 1, 0) := by simp [stepLC]
      rw [hstep, ih]
      have hcount : ('\n' :: r).count '\n' = r.count '\n' + 1 := by
        simp [List.count_cons]
      rw [hcount]
      have hsince : sinceLastNewline ('\n' :: r) =
          if r.count '\n' = 0 then r.length else sinceLastNewline r := by
        unfold sinceLastNewline
        rw [List.reverse_cons]
        by_cases hr : r.count '\n' = 0
        · rw [if_pos hr]
          rw [takeWhile_append_of_all_true _ _ _ ?_]
          · simp
          · intro x hx
            have hxr : x ∈ r := List.mem_reverse.mp hx
            have : '\n' ∉ r := List.count_eq_zero.mp hr
            simp only [bne_iff_ne, ne_eq]
            intro heq
            exact this (heq ▸ hxr)
        · rw [if_neg hr]
          rw [takeWhile_append_of_mem_false _ _ _ ?_]
          have hmem : '\n' ∈ r := by
            by_contra hnot
            exact hr (List.count_eq_zero.mpr hnot)
          exact ⟨'\n', List.mem_reverse.mpr hmem, by simp⟩
      rw [hsince]
      split <;> simp [Nat.add_comm, Nat.add_assoc, Nat.add_left_comm]
    · rw [List.foldl_cons]
      have hstep : stepLC (l, c) ch = (l, c + 1) := by simp [stepLC, hch]
      rw [hstep, ih]
      have hcount : (ch :: r).count '\n' = r.count '\n' := by
        simp [List.count_cons, hch]
      rw [hcount]
      by_cases hr : r.count '\n' = 0
      · simp only [hr, if_pos]
        simp [Nat.add_comm, Nat.add_assoc, Nat.add_left_comm]
      · rw [if_neg hr, if_neg hr]
        have hsince : sinceLastNewline (ch :: r) = sinceLastNewline r := by
          unfold sinceLastNewline
          rw [List.reverse_cons]
          rw [takeWhile_append_of_mem_false _ _ _ ?_]
          have hmem : '\n' ∈ r := by
            by_contra hnot
            exact hr (List.count_eq_zero.mpr hnot)
          exact ⟨'\n', List.mem_reverse.mpr hmem, by simp⟩
        rw [hsince]

theorem getLineColLoop_eq_foldl (t : List Char) : ∀ (n l c : Nat), n ≤ t.length →
    getLineColLoop t n l c = .ok ((t.take n).foldl stepLC (l, c)) := by
  induction t with
  | nil =>
    intro n l c hn
    have hn0 : n = 0 := Nat.le_zero.mp (by simpa using hn)
    subst hn0
    simp [getLineColLoop]
  | cons ch r ih =>
    intro n l c hn
    cases n with
    | zero => simp [getLineColLoop]
    | succ m =>
      have hm : m ≤ r.length := by simpa using hn
      by_cases hch : ch = '\n'
      · rw [show getLineColLoop (ch :: r) (m + 1) l c =
              getLineColLoop r m (l + 1) 0 by simp [getLineColLoop, hch]]
        rw [ih m (l + 1) 0 hm]
        have : stepLC (l, c) ch = (l + 1, 0) := by simp [stepLC, hch]
        simp [List.take_succ_cons, this]
      · rw [show getLineColLoop (ch :: r) (m + 1) l c =
              getLineColLoop r m l (c + 1) by simp [getLineColLoop, hch]]
        rw [ih m l (c + 1) hm]
        have : stepLC (l, c) ch = (l, c + 1) := by simp [stepLC, hch]
        simp [List.take_succ_cons, this]

theorem getLineColLoop_oob (t : List Char) : ∀ (n l c : Nat), t.length < n →
    getLineColLoop t n l c = .error .indexError := by
  induction t with
  | nil =>
    intro n l c hn
    cases n with
    | zero => cases hn
    | succ m => rfl
  | cons ch r ih =>
    intro n l c hn
    cases n with
    | zero => cases hn
    | succ m =>
      have hm : r.length < m := by simpa using hn
      by_cases hch : ch = '\n' <;> simp [getLineColLoop, hch, ih m _ _ hm]

/-- The value of `get_line_col_from_index` on any in-range index: the line is
the number of newlines in the prefix, the column is the number of characters
since the last newline. -/
theorem get_line_col_from_index_char (text : List Char) (index : Nat)
    (h : index ≤ text.length) :
    get_line_col_from_index text index =
      .ok ((text.take index).count '\n', sinceLastNewline (text.take index)) := by
  unfold get_line_col_from_index
  rw [getLineColLoop_eq_foldl text index 0 0 h, foldl_stepLC]
  by_cases hc : (text.take index).count '\n' = 0
  · rw [if_pos hc, sinceLastNewline_of_no_newline _ hc, Nat.zero_add, Nat.zero_add]
  · rw [if_neg hc, Nat.zero_add]

/-- C2 counterexample: on the text consisting of a single carriage return,
the offset-to-position conversion returns column 1 — the CR is counted as
a column character — whereas the claim predicts column 0 (the number of
non-CR characters since the last newline). -/
theorem get_line_col_cr_counterexample :
    get_line_col_from_index "\r".toList 1 = .ok (0, 1) ∧ (1 : Nat) ≠ 0 :=
  ⟨rfl, by decide⟩

/-- C2 (amended): `get_line_col_from_index` treats only `'\n'` as a line
separator, and counts every non-newline character — carriage returns
included — as one column: the line is the number of newlines before the
offset and the column is the number of characters (CR included) since the
last newline, so a lone CR advances the column but not the line. -/
theorem get_line_col_only_newline_separates (text : List Char) (index : Nat)
    (h : index ≤ text.length) :
    get_line_col_from_index text index =
      .ok ((text.take index).count '\n', sinceLastNewline (text.take index)) :=
  get_line_col_from_index_char text index h

/-- Witness for the amended C2 on a text containing a CR. -/
theorem get_line_col_only_newline_separates_witness :
    3 ≤ "a\rb\nc".toList.length ∧
      get_line_col_from_index "a\rb\nc".toList 3 =
        .ok (("a\rb\nc".toList.take 3).count '\n', sinceLastNewline ("a\rb\nc".toList.take 3)) :=
  ⟨by decide, get_line_col_only_newline_separates "a\rb\nc".toList 3 (by decide)⟩

/-- C10: `get_line_col_from_index` succeeds on every index up to and
including the text length, and on any larger index it fails with the plain
`IndexError` from character indexing, not the domain error
`InvalidTextLocationError`. -/
theorem get_line_col_total_iff_in_range (text : List Char) (index : Nat) :
    (index ≤ text.length → ∃ p, get_line_col_from_index text index = .ok p) ∧
    (text.length < index → get_line_col_from_index text index = .error .indexError) := by
  constructor
  · intro h
    exact ⟨_, get_line_col_from_index_char text index h⟩
  · intro h
    exact getLineColLoop_oob text index 0 0 h

/-- Witness for C10: at `"ab"`, index 2 (one past the last character)
succeeds and index 3 raises `IndexError`. -/
theorem get_line_col_total_iff_in_range_witness :
    (∃ p, get_line_col_from_index "ab".toList 2 = .ok p) ∧
      get_line_col_from_index "ab".toList 3 = .error .indexError :=
  ⟨(get_line_col_total_iff_in_range "ab".toList 2).1 (by decide),
    (get_line_col_total_iff_in_range "ab".toList 3).2 (by decide)⟩

/-- Rebuilds a text from its list of lines with `'\n'` separators
(the inverse of `linesOf`). -/
def joinLines : List (List Char) → List Char
  | [] => []
  | [l] => l
  | l :: ls => l ++ '\n' :: joinLines ls

/-- Joins lines giving each a trailing `'\n'` (the shape of a text prefix
that ends at the start of a line). -/
def joinAllNL : List (List Char) → List Char
  | [] => []
  | l :: ls => l ++ '\n' :: joinAllNL ls

/-- The character offset of the start of line `k` in a text with lines `ls`. -/
def startIdx : List (List Char) → Nat → Nat
  | _, 0 => 0
  | [], _ + 1 => 0
  | l :: ls, k + 1 => l.length + 1 + startIdx ls k

theorem linesOf_ne_nil (t : List Char) : linesOf t ≠ [] := by
  cases t with
  | nil => simp [linesOf]
  | cons ch r => by_cases hch : ch = '\n' <;> simp [linesOf, hch]

theorem linesOf_cons_newline (r : List Char) : linesOf ('\n' :: r) = [] :: linesOf r := by
  simp [linesOf]

theorem linesOf_cons_other {ch : Char} (hch : ch ≠ '\n') (r : List Char) :
    linesOf (ch :: r) = (ch :: (linesOf r).headI) :: (linesOf r).tail := by
  simp [linesOf, hch]

theorem joinLines_cons_cons (l m : List Char) (ls : List (List Char)) :
    joinLines (l :: m :: ls) = l ++ '\n' :: joinLines (m :: ls) := rfl

theorem joinLines_linesOf (t : List Char) : joinLines (linesOf t) = t := by
  induction t with
  | nil => rfl
  | cons ch r ih =>
    by_cases hch : ch = '\n'
    · subst hch
      rw [linesOf_cons_newline]
      obtain ⟨m, ls, hr⟩ : ∃ m ls, linesOf r = m :: ls := by
        cases hls : linesOf r with
        | nil => exact absurd hls (linesOf_ne_nil r)
        | cons m ls => exact ⟨m, ls, rfl⟩
      rw [hr, joinLines_cons_cons]
      rw [hr] at ih
      rw [ih]
      rfl
    · rw [linesOf_cons_other hch]
      obtain ⟨m, ls, hr⟩ : ∃ m ls, linesOf r = m :: ls := by
        cases hls : linesOf r with
        | nil => exact absurd hls (linesOf_ne_nil r)
        | cons m ls => exact ⟨m, ls, rfl⟩
      rw [hr] at ih ⊢
      simp only [List.headI, List.tail]
      cases ls with
      | nil => simpa [joinLines] using congrArg (ch :: ·) ih
      | cons m2 ls2 =>
        rw [joinLines_cons_cons] at ih ⊢
        simpa [List.cons_append] using congrArg (ch :: ·) ih

theorem length_linesOf (t : List Char) : (linesOf t).length = t.count '\n' + 1 := by
  induction t with
  | nil => rfl
  | cons ch r ih =>
    by_cases hch : ch = '\n'
    · subst hch
      rw [linesOf_cons_newline]
      simp [List.count_cons, ih]
    · rw [linesOf_cons_other hch]
      obtain ⟨m, ls, hr⟩ : ∃ m ls, linesOf r = m :: ls := by
        cases hls : linesOf r with
        | nil => exact absurd hls (linesOf_ne_nil r)
        | cons m ls => exact ⟨m, ls, rfl⟩
      rw [hr] at ih ⊢
      simp only [List.length_cons, List.tail, List.count_cons] at ih ⊢
      simp [hch, ← ih]

theorem linesOf_no_newline (t : List Char) : ∀ l ∈ linesOf t, '\n' ∉ l := by
  induction t with
  | nil => simp [linesOf]
  | cons ch r ih =>
    by_cases hch : ch = '\n'
    · subst hch
      rw [linesOf_cons_newline]
      intro l hl
      rcases List.mem_cons.mp hl with rfl | hl
      · simp
      · exact ih l hl
    · rw [linesOf_cons_other hch]
      obtain ⟨m, ls, hr⟩ : ∃ m ls, linesOf r = m :: ls := by
        cases hls : linesOf r with
        | nil => exact absurd hls (linesOf_ne_nil r)
        | cons m ls => exact ⟨m, ls, rfl⟩
      rw [hr]
      intro l hl
      rcases List.mem_cons.mp hl with rfl | hl
      · simp only [List.headI]
        intro hmem
        rcases List.mem_cons.mp hmem with heq | hmem
        · exact hch heq.symm
        · exact ih m (hr ▸ List.mem_cons_self m ls) hmem
      · exact ih l (hr ▸ List.mem_cons_of_mem m hl)

theorem linesOf_of_no_newline (a : List Char) (h : '\n' ∉ a) : linesOf a = [a] := by
  induction a with
  | nil => rfl
  | cons ch r ih =>
    have hch : ch ≠ '\n' := fun heq => h (heq ▸ List.mem_cons_self ch r)
    rw [linesOf_cons_other hch, ih fun hm => h (List.mem_cons_of_mem ch hm)]
    rfl

theorem linesOf_append_newline (a b : List Char) :
    linesOf (a ++ '\n' :: b) = linesOf a ++ linesOf b := by
  induction a with
  | nil => rw [List.nil_append, linesOf_cons_newline]; rfl
  | cons ch r ih =>
    by_cases hch : ch = '\n'
    · subst hch
      rw [List.cons_append, linesOf_cons_newline, linesOf_cons_newline, ih]
      rfl
    · rw [List.cons_append, linesOf_cons_other hch, linesOf_cons_other hch, ih]
      obtain ⟨m, ls, hr⟩ : ∃ m ls, linesOf r = m :: ls := by
        cases hls : linesOf r with
        | nil => exact absurd hls (linesOf_ne_nil r)
        | cons m ls => exact ⟨m, ls, rfl⟩
      rw [hr]
      rfl

theorem linesOf_joinLines (ls : List (List Char)) (hne : ls ≠ [])
    (hnl : ∀ l ∈ ls, '\n' ∉ l) : linesOf (joinLines ls) = ls := by
  induction ls with
  | nil => exact absurd rfl hne
  | cons l ls ih =>
    cases ls with
    | nil =>
      show linesOf (joinLines [l]) = [l]
      exact linesOf_of_no_newline l (hnl l (List.mem_cons_self l []))
    | cons m ls2 =>
      rw [joinLines_cons_cons, linesOf_append_newline,
        linesOf_of_no_newline l (hnl l (List.mem_cons_self l _)),
        ih (by simp) fun x hx => hnl x (List.mem_cons_of_mem l hx)]
      rfl

theorem getIndexLoop_zero (t : List Char) (i : Nat) : getIndexLoop t 0 i = .ok i := by
  cases t <;> rfl

theorem getIndexLoop_skip (a : List Char) (h : '\n' ∉ a) :
    ∀ (b : List Char) (k i : Nat),
      getIndexLoop (a ++ b) (k + 1) i = getIndexLoop b (k + 1) (i + a.length) := by
  induction a with
  | nil => intro b k i; simp
  | cons ch r ih =>
    intro b k i
    have hch : ch ≠ '\n' := fun heq => h (heq ▸ List.mem_cons_self ch r)
    rw [List.cons_append,
      show getIndexLoop (ch :: (r ++ b)) (k + 1) i = getIndexLoop (r ++ b) (k + 1) (i + 1) by
        simp [getIndexLoop, hch],
      ih (fun hm => h (List.mem_cons_of_mem ch hm)) b k (i + 1)]
    congr 1
    simp [Nat.add_comm, Nat.add_assoc, Nat.add_left_comm]

theorem getIndexLoop_newline (b : List Char) (k i : Nat) :
    getIndexLoop ('\n' :: b) (k + 1) i = getIndexLoop b k (i + 1) := by
  simp [getIndexLoop]

theorem getIndexLoop_joinLines :
    ∀ (line : Nat) (ls : List (List Char)), (∀ l ∈ ls, '\n' ∉ l) → line < ls.length →
      ∀ i, getIndexLoop (joinLines ls) line i = .ok (i + startIdx ls line) := by
  intro line
  induction line with
  | zero =>
    intro ls _ _ i
    rw [getIndexLoop_zero]
    cases ls <;> simp [startIdx]
  | succ k ih =>
    intro ls hnl hlt i
    rcases ls with _ | ⟨l, _ | ⟨m, ls2⟩⟩
    · cases hlt
    · exact absurd (Nat.lt_of_succ_lt_succ hlt) (Nat.not_lt_zero k)
    · rw [joinLines_cons_cons,
        getIndexLoop_skip l (hnl l (List.mem_cons_self l _)) _ k i,
        getIndexLoop_newline,
        ih (m :: ls2) (fun x hx => hnl x (List.mem_cons_of_mem l hx))
          (Nat.lt_of_succ_lt_succ hlt) (i + l.length + 1)]
      show _ = Except.ok (i + (l.length + 1 + startIdx (m :: ls2) k))
      congr 1
      simp [Nat.add_comm, Nat.add_assoc, Nat.add_left_comm]

theorem getIndexLoop_count_lt (t : List Char) :
    ∀ (k i : Nat), t.count '\n' < k → getIndexLoop t k i = .error .invalidTextLocation := by
  induction t with
  | nil =>
    intro k i hk
    cases k with
    | zero => cases hk
    | succ m => rfl
  | cons ch r ih =>
    intro k i hk
    cases k with
    | zero => cases hk
    | succ m =>
      by_cases hch : ch = '\n'
      · subst hch
        rw [getIndexLoop_newline]
        apply ih
        have : r.count '\n' + 1 < m + 1 := by
          simpa [List.count_cons] using hk
        exact Nat.lt_of_succ_lt_succ this
      · rw [show getIndexLoop (ch :: r) (m + 1) i = getIndexLoop r (m + 1) (i + 1) by
          simp [getIndexLoop, hch]]
        apply ih
        simpa [List.count_cons, hch] using hk

theorem getIndexLoop_consume_all (a : List Char) :
    ∀ (b : List Char) (i : Nat),
      getIndexLoop (a ++ '\n' :: b) (a.count '\n' + 1) i = .ok (i + a.length + 1) := by
  induction a with
  | nil => intro b i; simp [getIndexLoop_newline, getIndexLoop_zero]
  | cons ch r ih =>
    intro b i
    by_cases hch : ch = '\n'
    · subst hch
      rw [List.cons_append, show (('\n' :: r).count '\n') = r.count '\n' + 1 by
        simp [List.count_cons]]
      rw [getIndexLoop_newline, ih b (i + 1)]
      congr 1
      simp [Nat.add_comm, Nat.add_assoc, Nat.add_left_comm]
    · rw [List.cons_append, show ((ch :: r).count '\n') = r.count '\n' by
        simp [List.count_cons, hch]]
      rw [show getIndexLoop (ch :: (r ++ '\n' :: b)) (r.count '\n' + 1) i =
          getIndexLoop (r ++ '\n' :: b) (r.count '\n' + 1) (i + 1) by
        simp [getIndexLoop, hch]]
      rw [ih b (i + 1)]
      congr 1
      simp [Nat.add_comm, Nat.add_assoc, Nat.add_left_comm]

theorem getIndexLoop_passthrough (a : List Char) :
    ∀ (b : List Char) (line i : Nat), a.count '\n' < line →
      getIndexLoop (a ++ b) line i = getIndexLoop b (line - a.count '\n') (i + a.length) := by
  induction a with
  | nil => intro b line i _; simp
  | cons ch r ih =>
    intro b line i hlt
    cases line with
    | zero => cases hlt
    | succ m =>
      by_cases hch : ch = '\n'
      · subst hch
        have hcount : List.count '\n' ('\n' :: r) = r.count '\n' + 1 := by
          simp [List.count_cons]
        have hrm : r.count '\n' < m := by
          have := hcount ▸ hlt
          omega
        rw [List.cons_append, getIndexLoop_newline, ih b m (i + 1) hrm, hcount]
        have h1 : m + 1 - (r.count '\n' + 1) = m - r.count '\n' := by omega
        have h2 : i + ('\n' :: r).length = i + 1 + r.length := by
          simp [Nat.add_comm, Nat.add_assoc, Nat.add_left_comm]
        rw [h1, h2]
      · have hcount : List.count '\n' (ch :: r) = r.count '\n' := by
          simp [List.count_cons, hch]
        have hrm : r.count '\n' < m + 1 := by
          have := hcount ▸ hlt
          omega
        rw [List.cons_append,
          show getIndexLoop (ch :: (r ++ b)) (m + 1) i =
            getIndexLoop (r ++ b) (m + 1) (i + 1) by simp [getIndexLoop, hch],
          ih b (m + 1) (i + 1) hrm, hcount]
        congr 1
        simp [Nat.add_comm, Nat.add_assoc, Nat.add_left_comm]

theorem getIndexLoop_ok_le (t : List Char) :
    ∀ (k i j : Nat), getIndexLoop t k i = .ok j → i ≤ j := by
  induction t with
  | nil =>
    intro k i j h
    cases k with
    | zero => cases h; exact Nat.le_refl i
    | succ m => cases h
  | cons ch r ih =>
    intro k i j h
    cases k with
    | zero => cases h; exact Nat.le_refl i
    | succ m =>
      by_cases hch : ch = '\n'
      · subst hch
        rw [getIndexLoop_newline] at h
        exact Nat.le_of_succ_le (ih m (i + 1) j h)
      · rw [show getIndexLoop (ch :: r) (m + 1) i = getIndexLoop r (m + 1) (i + 1) by
          simp [getIndexLoop, hch]] at h
        exact Nat.le_of_succ_le (ih (m + 1) (i + 1) j h)

theorem getIndexLoop_prefix (t : List Char) :
    ∀ (k i j : Nat), getIndexLoop t k i = .ok j →
      ∀ b, getIndexLoop (t.take (j - i) ++ b) k i = .ok j := by
  induction t with
  | nil =>
    intro k i j h b
    cases k with
    | zero =>
      cases h
      simpa using getIndexLoop_zero b i
    | succ m => cases h
  | cons ch r ih =>
    intro k i j h b
    cases k with
    | zero =>
      cases h
      simpa using getIndexLoop_zero b i
    | succ m =>
      by_cases hch : ch = '\n'
      · subst hch
        rw [getIndexLoop_newline] at h
        have hij : i + 1 ≤ j := getIndexLoop_ok_le r m (i + 1) j h
        have hsub : j - i = (j - (i + 1)) + 1 := by omega
        rw [hsub, List.take_succ_cons, List.cons_append, getIndexLoop_newline]
        exact ih m (i + 1) j h b
      · rw [show getIndexLoop (ch :: r) (m + 1) i = getIndexLoop r (m + 1) (i + 1) by
          simp [getIndexLoop, hch]] at h
        have hij : i + 1 ≤ j := getIndexLoop_ok_le r (m + 1) (i + 1) j h
        have hsub : j - i = (j - (i + 1)) + 1 := by omega
        rw [hsub, List.take_succ_cons, List.cons_append,
          show getIndexLoop (ch :: (r.take (j - (i + 1)) ++ b)) (m + 1) i =
            getIndexLoop (r.take (j - (i + 1)) ++ b) (m + 1) (i + 1) by
          simp [getIndexLoop, hch]]
        exact ih (m + 1) (i + 1) j h b

theorem getLineColLoop_within_line (a : List Char) (h : '\n' ∉ a) :
    ∀ (t : List Char) (n l c : Nat), n ≤ a.length →
      getLineColLoop (a ++ t) n l c = .ok (l, c + n) := by
  induction a with
  | nil =>
    intro t n l c hn
    have hn0 : n = 0 := Nat.le_zero.mp (by simpa using hn)
    subst hn0
    cases t <;> rfl
  | cons ch r ih =>
    intro t n l c hn
    have hch : ch ≠ '\n' := fun heq => h (heq ▸ List.mem_cons_self ch r)
    cases n with
    | zero => cases (ch :: r) ++ t <;> rfl
    | succ m =>
      rw [List.cons_append,
        show getLineColLoop (ch :: (r ++ t)) (m + 1) l c =
          getLineColLoop (r ++ t) m l (c + 1) by simp [getLineColLoop, hch],
        ih (fun hm => h (List.mem_cons_of_mem ch hm)) t m l (c + 1) (by simpa using hn)]
      congr 2
      omega

theorem getLineColLoop_cross_line (a : List Char) (h : '\n' ∉ a) :
    ∀ (t : List Char) (m l c : Nat),
      getLineColLoop (a ++ '\n' :: t) (a.length + 1 + m) l c =
        getLineColLoop t m (l + 1) 0 := by
  induction a with
  | nil =>
    intro t m l c
    rw [show ([] : List Char).length + 1 + m = m + 1 by rw [List.length_nil]; omega]
    simp [getLineColLoop]
  | cons ch r ih =>
    intro t m l c
    have hch : ch ≠ '\n' := fun heq => h (heq ▸ List.mem_cons_self ch r)
    rw [show (ch :: r).length + 1 + m = (r.length + 1 + m) + 1 by simp; omega,
      List.cons_append,
      show getLineColLoop (ch :: (r ++ '\n' :: t)) (r.length + 1 + m + 1) l c =
        getLineColLoop (r ++ '\n' :: t) (r.length + 1 + m) l (c + 1) by
        simp [getLineColLoop, hch],
      ih (fun hm => h (List.mem_cons_of_mem ch hm)) t m l (c + 1)]

theorem getLineColLoop_joinLines :
    ∀ (line : Nat) (ls : List (List Char)), (∀ l ∈ ls, '\n' ∉ l) →
      ∀ (hlt : line < ls.length) (col lacc : Nat), col ≤ (ls.get ⟨line, hlt⟩).length →
        getLineColLoop (joinLines ls) (startIdx ls line + col) lacc 0 =
          .ok (lacc + line, col) := by
  intro line
  induction line with
  | zero =>
    intro ls hnl hlt col lacc hcol
    rcases ls with _ | ⟨l0, _ | ⟨m, rest⟩⟩
    · cases hlt
    · show getLineColLoop (joinLines [l0]) (startIdx [l0] 0 + col) lacc 0 = _
      have : joinLines [l0] = l0 ++ [] := by simp [joinLines]
      rw [this, show startIdx [l0] 0 + col = col by simp [startIdx]]
      rw [getLineColLoop_within_line l0 (hnl l0 (List.mem_cons_self l0 [])) [] col lacc 0
        (by simpa using hcol)]
      simp
    · rw [joinLines_cons_cons, show startIdx (l0 :: m :: rest) 0 + col = col by
        simp [startIdx]]
      rw [getLineColLoop_within_line l0 (hnl l0 (List.mem_cons_self l0 _)) _ col lacc 0
        (by simpa using hcol)]
      simp
  | succ k ih =>
    intro ls hnl hlt col lacc hcol
    rcases ls with _ | ⟨l0, _ | ⟨m, rest⟩⟩
    · cases hlt
    · exact absurd (Nat.lt_of_succ_lt_succ hlt) (Nat.not_lt_zero k)
    · rw [joinLines_cons_cons,
        show startIdx (l0 :: m :: rest) (k + 1) + col =
          l0.length + 1 + (startIdx (m :: rest) k + col) by simp [startIdx]; omega,
        getLineColLoop_cross_line l0 (hnl l0 (List.mem_cons_self l0 _)) _ _ lacc 0,
        ih (m :: rest) (fun x hx => hnl x (List.mem_cons_of_mem l0 hx))
          (Nat.lt_of_succ_lt_succ hlt) col (lacc + 1) (by simpa using hcol)]
      congr 2
      omega

/-- C3: on every valid position of a text (line within the text's lines,
column at most that line's length), converting the position to an offset
and back returns exactly the original position. -/
theorem position_offset_round_trip (T : List Char) (line col : Nat)
    (h1 : line < (linesOf T).length)
    (h2 : col ≤ ((linesOf T).get ⟨line, h1⟩).length) :
    ∃ i, get_index_from_line_col T line col = .ok i ∧
      get_line_col_from_index T i = .ok (line, col) := by
  have hnl := linesOf_no_newline T
  have hT : joinLines (linesOf T) = T := joinLines_linesOf T
  refine ⟨startIdx (linesOf T) line + col, ?_, ?_⟩
  · unfold get_index_from_line_col
    have h := getIndexLoop_joinLines line (linesOf T) hnl h1 0
    rw [hT] at h
    rw [h]
    simp [Except.map]
  · unfold get_line_col_from_index
    have h := getLineColLoop_joinLines line (linesOf T) hnl h1 col 0 h2
    rw [hT] at h
    rw [h]
    simp

/-- Witness for C3 at position (1, 1) of `"ab\ncd"`. -/
theorem position_offset_round_trip_witness :
    ∃ h1 : 1 < (linesOf "ab\ncd".toList).length,
      1 ≤ ((linesOf "ab\ncd".toList).get ⟨1, h1⟩).length ∧
      ∃ i, get_index_from_line_col "ab\ncd".toList 1 1 = .ok i ∧
        get_line_col_from_index "ab\ncd".toList i = .ok (1, 1) :=
  ⟨by decide, by decide,
    position_offset_round_trip "ab\ncd".toList 1 1 (by decide) (by decide)⟩

theorem get_index_over_lines (text : List Char) (line col : Nat)
    (h : text.count '\n' < line) :
    get_index_from_line_col text line col = .error .invalidTextLocation := by
  unfold get_index_from_line_col
  rw [getIndexLoop_count_lt text line 0 h]
  rfl

/-- C5: inserting with `line` equal to one past the last existing line
(`count of newlines + 1`) and column 0 succeeds and appends the inserted
text after a fresh newline separator, yielding `text ++ '\n' ++ ins`; any
other unresolvable position (a line further past the end, or a nonzero
column at that first unresolvable line) raises the out-of-range error. -/
theorem insert_text_append_after_last_line (T S : List Char) (line col : Nat) :
    (∃ l c, insert_text_at_position T (T.count '\n' + 1) 0 S = .ok (T ++ '\n' :: S, l, c)) ∧
    (T.count '\n' + 1 < line ∨ (line = T.count '\n' + 1 ∧ col ≠ 0) →
      insert_text_at_position T line col S = .error .invalidTextLocation) := by
  constructor
  · unfold insert_text_at_position
    rw [get_index_over_lines T (T.count '\n' + 1) 0 (Nat.lt_succ_self _)]
    rw [if_pos ⟨by omega, rfl⟩]
    refine ⟨T.count '\n' + 1 + ('\n' :: S).count '\n', lastLineLen ('\n' :: S), ?_⟩
    simp [_get_updated_position_from_line_and_column_and_edit, List.count_cons]
  · intro hcase
    have hover : T.count '\n' < line := by omega
    unfold insert_text_at_position
    rw [get_index_over_lines T line col hover]
    rw [if_neg ?_]
    rintro ⟨hline, hcol⟩
    rcases hcase with hgt | ⟨heq, hne⟩
    · omega
    · exact hne hcol

/-- Witness for C5 at `"ab"` (one line): appending at line 1 column 0
succeeds, and line 3 is rejected. -/
theorem insert_text_append_after_last_line_witness :
    (∃ l c, insert_text_at_position "ab".toList ("ab".toList.count '\n' + 1) 0 "x".toList =
      .ok ("ab".toList ++ '\n' :: "x".toList, l, c)) ∧
    insert_text_at_position "ab".toList 3 0 "x".toList = .error .invalidTextLocation :=
  ⟨(insert_text_append_after_last_line "ab".toList "x".toList 3 0).1,
    (insert_text_append_after_last_line "ab".toList "x".toList 3 0).2 (Or.inl (by decide))⟩

theorem joinLines_cons_of_ne_nil (l : List Char) {ls : List (List Char)} (h : ls ≠ []) :
    joinLines (l :: ls) = l ++ '\n' :: joinLines ls := by
  cases ls with
  | nil => exact absurd rfl h
  | cons m rest => exact joinLines_cons_cons l m rest

theorem append_newline_cons (l x : List Char) : l ++ '\n' :: x = (l ++ ['\n']) ++ x := by
  simp

theorem drop_startIdx_joinLines :
    ∀ (k : Nat) (ls : List (List Char)), k < ls.length →
      (joinLines ls).drop (startIdx ls k) = joinLines (ls.drop k) := by
  intro k
  induction k with
  | zero => intro ls _; cases ls <;> simp [startIdx]
  | succ k ih =>
    intro ls hlt
    rcases ls with _ | ⟨l, _ | ⟨m, rest⟩⟩
    · cases hlt
    · exact absurd (Nat.lt_of_succ_lt_succ hlt) (Nat.not_lt_zero k)
    · rw [joinLines_cons_cons, append_newline_cons,
        show startIdx (l :: m :: rest) (k + 1) =
          (l ++ ['\n']).length + startIdx (m :: rest) k by simp [startIdx],
        List.drop_append, ih (m :: rest) (Nat.lt_of_succ_lt_succ hlt)]
      rfl

theorem take_startIdx_joinLines :
    ∀ (k : Nat) (ls : List (List Char)), k < ls.length →
      (joinLines ls).take (startIdx ls k) = joinAllNL (ls.take k) := by
  intro k
  induction k with
  | zero => intro ls _; cases ls <;> simp [startIdx, joinAllNL]
  | succ k ih =>
    intro ls hlt
    rcases ls with _ | ⟨l, _ | ⟨m, rest⟩⟩
    · cases hlt
    · exact absurd (Nat.lt_of_succ_lt_succ hlt) (Nat.not_lt_zero k)
    · rw [joinLines_cons_cons, append_newline_cons,
        show startIdx (l :: m :: rest) (k + 1) =
          (l ++ ['\n']).length + startIdx (m :: rest) k by simp [startIdx],
        List.take_append, ih (m :: rest) (Nat.lt_of_succ_lt_succ hlt)]
      show (l ++ ['\n']) ++ joinAllNL ((m :: rest).take k) = joinAllNL (l :: (m :: rest).take k)
      simp [joinAllNL]

theorem joinAllNL_append_joinLines :
    ∀ (a b : List (List Char)), b ≠ [] →
      joinAllNL a ++ joinLines b = joinLines (a ++ b) := by
  intro a b hb
  induction a with
  | nil => rfl
  | cons l a ih =>
    show (l ++ '\n' :: joinAllNL a) ++ joinLines b = joinLines (l :: (a ++ b))
    rw [joinLines_cons_of_ne_nil l (by simp [hb]), List.append_assoc, List.cons_append, ih]

/-- C7: `delete_lines` on a file with at least `endLine + 2` lines removes
exactly the lines `startLine..endLine` (inclusive) — the resulting text's
lines are the original lines before `startLine` followed by the original
lines after `endLine`, all unchanged. -/
theorem delete_lines_removes_inclusive_range (T : List Char) (s e : Nat)
    (hse : s ≤ e) (hlen : e + 2 ≤ (linesOf T).length) :
    ∃ t2, delete_lines_text T s e = .ok t2 ∧
      linesOf t2 = (linesOf T).take s ++ (linesOf T).drop (e + 1) := by
  have hnl := linesOf_no_newline T
  have hT : joinLines (linesOf T) = T := joinLines_linesOf T
  have hs : s < (linesOf T).length := by omega
  have he : e + 1 < (linesOf T).length := by omega
  have hidx1 : get_index_from_line_col T s 0 = .ok (startIdx (linesOf T) s) := by
    unfold get_index_from_line_col
    have h := getIndexLoop_joinLines s (linesOf T) hnl hs 0
    rw [hT] at h
    rw [h]
    simp [Except.map]
  have hidx2 : get_index_from_line_col T (e + 1) 0 = .ok (startIdx (linesOf T) (e + 1)) := by
    unfold get_index_from_line_col
    have h := getIndexLoop_joinLines (e + 1) (linesOf T) hnl he 0
    rw [hT] at h
    rw [h]
    simp [Except.map]
  have htake : T.take (startIdx (linesOf T) s) = joinAllNL ((linesOf T).take s) := by
    have h := take_startIdx_joinLines s (linesOf T) hs
    rw [hT] at h
    exact h
  have hdrop : T.drop (startIdx (linesOf T) (e + 1)) = joinLines ((linesOf T).drop (e + 1)) := by
    have h := drop_startIdx_joinLines (e + 1) (linesOf T) he
    rw [hT] at h
    exact h
  have hdropne : (linesOf T).drop (e + 1) ≠ [] := by
    intro hnil
    have := List.drop_eq_nil_iff.mp hnil
    omega
  refine ⟨T.take (startIdx (linesOf T) s) ++ T.drop (startIdx (linesOf T) (e + 1)), ?_, ?_⟩
  · unfold delete_lines_text delete_text_between_positions
    rw [hidx1, hidx2]
    rfl
  · rw [htake, hdrop, joinAllNL_append_joinLines _ _ hdropne]
    apply linesOf_joinLines
    · simp [hdropne]
    · intro l hl
      rcases List.mem_append.mp hl with hl | hl
      · exact hnl l ((List.take_sublist s (linesOf T)).subset hl)
      · exact hnl l ((List.drop_sublist (e + 1) (linesOf T)).subset hl)

/-- Witness for C7: deleting lines 2..4 of a six-line file leaves exactly
the original lines 0, 1 and 5. -/
theorem delete_lines_removes_inclusive_range_witness :
    (2 : Nat) ≤ 4 ∧ 4 + 2 ≤ (linesOf "a0\nb1\nc2\nd3\ne4\nf5".toList).length ∧
      ∃ t2, delete_lines_text "a0\nb1\nc2\nd3\ne4\nf5".toList 2 4 = .ok t2 ∧
        linesOf t2 = (linesOf "a0\nb1\nc2\nd3\ne4\nf5".toList).take 2 ++
          (linesOf "a0\nb1\nc2\nd3\ne4\nf5".toList).drop 5 :=
  ⟨by decide, by decide,
    delete_lines_removes_inclusive_range "a0\nb1\nc2\nd3\ne4\nf5".toList 2 4
      (by decide) (by decide)⟩

/-- C9 counterexample: with text `"ab"`, start position (0,5) and end
position (0,3) the resolved indices are reversed (3 < 5) yet both exceed
usable bounds; the call returns the unchanged text `"ab"` with an empty
deleted string, which is NOT strictly longer than the input, contradicting
the claim's universally asserted length increase. -/
theorem delete_reversed_range_counterexample :
    get_index_from_line_col "ab".toList 0 5 = .ok 5 ∧
      get_index_from_line_col "ab".toList 0 3 = .ok 3 ∧
      delete_text_between_positions "ab".toList 0 5 0 3 = .ok ("ab".toList, []) ∧
      ¬ "ab".toList.length < "ab".toList.length :=
  ⟨rfl, rfl, rfl, by decide⟩

/-- C9 (amended): when the resolved end index is strictly before the
resolved start index and the start index is within the text,
`delete_text_between_positions` does not raise: it returns an empty deleted
string and a new text `text[:startIdx] ++ text[endIdx:]` that duplicates
the characters between the two indices and is strictly longer than the
input. -/
theorem delete_reversed_range_duplicates (text : List Char)
    (startLine startCol endLine endCol startIdx endIdx : Nat)
    (hstart : get_index_from_line_col text startLine startCol = .ok startIdx)
    (hend : get_index_from_line_col text endLine endCol = .ok endIdx)
    (hrev : endIdx < startIdx) (hbound : startIdx ≤ text.length) :
    delete_text_between_positions text startLine startCol endLine endCol =
        .ok (text.take startIdx ++ text.drop endIdx, []) ∧
      text.length < (text.take startIdx ++ text.drop endIdx).length := by
  constructor
  · unfold delete_text_between_positions
    rw [hstart, hend]
    show Except.ok (_, (text.take endIdx).drop startIdx) = _
    have hdel : (text.take endIdx).drop startIdx = [] := by
      apply List.drop_eq_nil_of_le
      calc (text.take endIdx).length ≤ endIdx := List.length_take_le endIdx text
        _ ≤ startIdx := Nat.le_of_lt hrev
    rw [hdel]
  · rw [List.length_append, List.length_take, List.length_drop,
      Nat.min_eq_left hbound]
    omega

/-- Witness for the amended C9 on `"abcd"` with start (0,3), end (0,1). -/
theorem delete_reversed_range_duplicates_witness :
    get_index_from_line_col "abcd".toList 0 3 = .ok 3 ∧
      get_index_from_line_col "abcd".toList 0 1 = .ok 1 ∧
      (1 : Nat) < 3 ∧ (3 : Nat) ≤ "abcd".toList.length ∧
      (delete_text_between_positions "abcd".toList 0 3 0 1 =
          .ok ("abcd".toList.take 3 ++ "abcd".toList.drop 1, []) ∧
        "abcd".toList.length < ("abcd".toList.take 3 ++ "abcd".toList.drop 1).length) :=
  ⟨rfl, rfl, by decide, by decide,
    delete_reversed_range_duplicates "abcd".toList 0 3 0 1 3 1 rfl rfl
      (by decide) (by decide)⟩

theorem getIndexLoop_ok_le_length (t : List Char) :
    ∀ (k i j : Nat), getIndexLoop t k i = .ok j → j ≤ i + t.length := by
  induction t with
  | nil =>
    intro k i j h
    cases k with
    | zero => cases h; simp
    | succ m => cases h
  | cons ch r ih =>
    intro k i j h
    cases k with
    | zero => cases h; simp
    | succ m =>
      by_cases hch : ch = '\n'
      · subst hch
        rw [getIndexLoop_newline] at h
        have := ih m (i + 1) j h
        simp only [List.length_cons]
        omega
      · rw [show getIndexLoop (ch :: r) (m + 1) i = getIndexLoop r (m + 1) (i + 1) by
          simp [getIndexLoop, hch]] at h
        have := ih (m + 1) (i + 1) j h
        simp only [List.length_cons]
        omega

theorem count_joinAllNL (a : List (List Char)) (h : ∀ l ∈ a, '\n' ∉ l) :
    (joinAllNL a).count '\n' = a.length := by
  induction a with
  | nil => rfl
  | cons l rest ih =>
    show (l ++ '\n' :: joinAllNL rest).count '\n' = rest.length + 1
    rw [List.count_append, List.count_cons,
      List.count_eq_zero.mpr (h l (List.mem_cons_self l rest)),
      ih fun x hx => h x (List.mem_cons_of_mem l hx)]
    simp

theorem lastLineLen_decomp (S1 S2 : List Char) (h : '\n' ∉ S2) :
    lastLineLen (S1 ++ '\n' :: S2) = S2.length := by
  unfold lastLineLen
  rw [linesOf_append_newline, linesOf_of_no_newline S2 h, List.getLastD_concat]

theorem decomp_last_newline (S : List Char) (h : '\n' ∈ S) :
    ∃ S1 S2, S = S1 ++ '\n' :: S2 ∧ '\n' ∉ S2 := by
  induction S with
  | nil => cases h
  | cons ch r ih =>
    by_cases hr : '\n' ∈ r
    · obtain ⟨R1, R2, hdec, hnl⟩ := ih hr
      exact ⟨ch :: R1, R2, by rw [hdec]; rfl, hnl⟩
    · have hch : ch = '\n' := by
        rcases List.mem_cons.mp h with heq | hmem
        · exact heq.symm
        · exact absurd hmem hr
      exact ⟨[], r, by rw [hch]; rfl, hr⟩

theorem get_index_eval (text : List Char) (line col j : Nat)
    (h : getIndexLoop text line 0 = .ok j) :
    get_index_from_line_col text line col = .ok (j + col) := by
  unfold get_index_from_line_col
  rw [h]
  rfl

theorem delete_text_eval (text : List Char) (sl sc el ec si ei : Nat)
    (hs : get_index_from_line_col text sl sc = .ok si)
    (he : get_index_from_line_col text el ec = .ok ei) :
    delete_text_between_positions text sl sc el ec =
      .ok (text.take si ++ text.drop ei, (text.take ei).drop si) := by
  unfold delete_text_between_positions
  rw [hs, he]
  rfl

/-- C4 counterexample: with text `"ab\ncd"`, position (0,4) — whose column
exceeds line 0's length but still resolves to index 4, inside line 1 — and
inserted string `"x\ny"`, the insert succeeds with cursor (1,1), but
deleting from (0,4) to (1,1) on the result deletes nothing: both positions
resolve to index 4 of the new text, so the call returns the unmodified text
`"ab\ncx\nyd"` and an empty deleted string instead of restoring `"ab\ncd"`
and returning `"x\ny"`. -/
theorem insert_then_delete_counterexample :
    insert_text_at_position "ab\ncd".toList 0 4 "x\ny".toList =
        .ok ("ab\ncx\nyd".toList, 1, 1) ∧
      delete_text_between_positions "ab\ncx\nyd".toList 0 4 1 1 =
        .ok ("ab\ncx\nyd".toList, []) ∧
      "ab\ncx\nyd".toList ≠ "ab\ncd".toList ∧ ([] : List Char) ≠ "x\ny".toList :=
  ⟨rfl, rfl, by decide, by decide⟩

/-- C4 (amended): for every text, every valid position within it (line
within the text's lines and column at most that line's length) and every
inserted string, inserting at the position and then deleting from that
position to the cursor returned by the insert restores the original text
and returns exactly the inserted string. -/
theorem insert_then_delete_restores (T S : List Char) (line col : Nat)
    (h1 : line < (linesOf T).length)
    (h2 : col ≤ ((linesOf T).get ⟨line, h1⟩).length) :
    ∃ T1 l2 c2, insert_text_at_position T line col S = .ok (T1, l2, c2) ∧
      delete_text_between_positions T1 line col l2 c2 = .ok (T, S) := by
  have hnl := linesOf_no_newline T
  have hT : joinLines (linesOf T) = T := joinLines_linesOf T
  have F1 : getIndexLoop T line 0 = .ok (startIdx (linesOf T) line) := by
    have h := getIndexLoop_joinLines line (linesOf T) hnl h1 0
    rw [hT] at h
    simpa using h
  have hsol_le : startIdx (linesOf T) line ≤ T.length := by
    have := getIndexLoop_ok_le_length T line 0 (startIdx (linesOf T) line) F1
    omega
  have hidx : get_index_from_line_col T line col = .ok (startIdx (linesOf T) line + col) :=
    get_index_eval T line col (startIdx (linesOf T) line) F1
  have hA : T.take (startIdx (linesOf T) line) = joinAllNL ((linesOf T).take line) := by
    have h := take_startIdx_joinLines line (linesOf T) h1
    rw [hT] at h
    exact h
  have hAcount : (T.take (startIdx (linesOf T) line)).count '\n' = line := by
    rw [hA, count_joinAllNL _ fun l hl => hnl l ((List.take_sublist line _).subset hl)]
    rw [List.length_take]
    exact Nat.min_eq_left (Nat.le_of_lt h1)
  have hAlen : (T.take (startIdx (linesOf T) line)).length = startIdx (linesOf T) line := by
    rw [List.length_take]
    exact Nat.min_eq_left hsol_le
  have hD : T.drop (startIdx (linesOf T) line) = joinLines ((linesOf T).drop line) := by
    have h := drop_startIdx_joinLines line (linesOf T) h1
    rw [hT] at h
    exact h
  have hdropcons : (linesOf T).drop line =
      (linesOf T).get ⟨line, h1⟩ :: (linesOf T).drop (line + 1) :=
    List.drop_eq_get_cons h1
  have hDtake : (T.drop (startIdx (linesOf T) line)).take col =
      ((linesOf T).get ⟨line, h1⟩).take col := by
    rw [hD, hdropcons]
    cases hrest : (linesOf T).drop (line + 1) with
    | nil => rfl
    | cons m rest2 =>
      rw [joinLines_cons_cons]
      exact List.take_append_of_le_length h2
  have hmidnl : '\n' ∉ (T.drop (startIdx (linesOf T) line)).take col := by
    rw [hDtake]
    intro hm
    exact hnl _ (List.get_mem _ _ _) ((List.take_sublist _ _).subset hm)
  have hmidlen : ((T.drop (startIdx (linesOf T) line)).take col).length = col := by
    rw [hDtake, List.length_take]
    exact Nat.min_eq_left h2
  have hci_le : startIdx (linesOf T) line + col ≤ T.length := by
    have hcol_le : col ≤ (T.drop (startIdx (linesOf T) line)).length := by
      have h := hmidlen
      rw [List.length_take] at h
      exact min_eq_left_iff.mp h
    rw [List.length_drop] at hcol_le
    omega
  have hTsplit : T.take (startIdx (linesOf T) line + col) =
      T.take (startIdx (linesOf T) line) ++ (T.drop (startIdx (linesOf T) line)).take col :=
    List.take_add T _ col
  have hlen_takeci : (T.take (startIdx (linesOf T) line + col)).length =
      startIdx (linesOf T) line + col := by
    rw [List.length_take]
    exact Nat.min_eq_left hci_le
  have hloopT1 : ∀ b, getIndexLoop (T.take (startIdx (linesOf T) line) ++ b) line 0 =
      .ok (startIdx (linesOf T) line) := by
    intro b
    have h := getIndexLoop_prefix T line 0 (startIdx (linesOf T) line) F1 b
    simpa using h
  have hT1assoc : T.take (startIdx (linesOf T) line + col) ++ S ++
        T.drop (startIdx (linesOf T) line + col) =
      T.take (startIdx (linesOf T) line) ++
        ((T.drop (startIdx (linesOf T) line)).take col ++
          (S ++ T.drop (startIdx (linesOf T) line + col))) := by
    rw [hTsplit]
    simp [List.append_assoc]
  have hstart : get_index_from_line_col
      (T.take (startIdx (linesOf T) line + col) ++ S ++
        T.drop (startIdx (linesOf T) line + col)) line col =
      .ok (startIdx (linesOf T) line + col) := by
    rw [hT1assoc]
    exact get_index_eval _ line col _ (hloopT1 _)
  have hfindel : ∀ l2 c2,
      get_index_from_line_col
        (T.take (startIdx (linesOf T) line + col) ++ S ++
          T.drop (startIdx (linesOf T) line + col)) l2 c2 =
        .ok (startIdx (linesOf T) line + col + S.length) →
      delete_text_between_positions
        (T.take (startIdx (linesOf T) line + col) ++ S ++
          T.drop (startIdx (linesOf T) line + col)) line col l2 c2 = .ok (T, S) := by
    intro l2 c2 hend
    rw [delete_text_eval _ line col l2 c2 _ _ hstart hend]
    have e1 : (T.take (startIdx (linesOf T) line + col) ++ S ++
        T.drop (startIdx (linesOf T) line + col)).take
          (startIdx (linesOf T) line + col) =
        T.take (startIdx (linesOf T) line + col) := by
      have h : (T.take (startIdx (linesOf T) line + col) ++
          (S ++ T.drop (startIdx (linesOf T) line + col))).take
            (T.take (startIdx (linesOf T) line + col)).length =
          T.take (startIdx (linesOf T) line + col) := List.take_left _ _
      rw [hlen_takeci, ← List.append_assoc] at h
      exact h
    have hxslen : (T.take (startIdx (linesOf T) line + col) ++ S).length =
        startIdx (linesOf T) line + col + S.length := by
      rw [List.length_append, hlen_takeci]
    have e2 : (T.take (startIdx (linesOf T) line + col) ++ S ++
        T.drop (startIdx (linesOf T) line + col)).drop
          (startIdx (linesOf T) line + col + S.length) =
        T.drop (startIdx (linesOf T) line + col) := by
      have h := List.drop_left (T.take (startIdx (linesOf T) line + col) ++ S)
        (T.drop (startIdx (linesOf T) line + col))
      rw [hxslen] at h
      exact h
    have e3 : (T.take (startIdx (linesOf T) line + col) ++ S ++
        T.drop (startIdx (linesOf T) line + col)).take
          (startIdx (linesOf T) line + col + S.length) =
        T.take (startIdx (linesOf T) line + col) ++ S := by
      have h := List.take_left (T.take (startIdx (linesOf T) line + col) ++ S)
        (T.drop (startIdx (linesOf T) line + col))
      rw [hxslen] at h
      exact h
    have e4 : (T.take (startIdx (linesOf T) line + col) ++ S).drop
        (startIdx (linesOf T) line + col) = S := by
      have h := List.drop_left (T.take (startIdx (linesOf T) line + col)) S
      rw [hlen_takeci] at h
      exact h
    rw [e1, e2, e3, e4, List.take_append_drop]
  by_cases hk : S.count '\n' = 0
  · have hupd : _get_updated_position_from_line_and_column_and_edit line col S =
        (line, col + S.length) := by
      unfold _get_updated_position_from_line_and_column_and_edit
      rw [hk]
      simp
    have hins : insert_text_at_position T line col S =
        .ok (T.take (startIdx (linesOf T) line + col) ++ S ++
          T.drop (startIdx (linesOf T) line + col), line, col + S.length) := by
      unfold insert_text_at_position
      rw [hidx, hupd]
    refine ⟨_, _, _, hins, hfindel line (col + S.length) ?_⟩
    rw [hT1assoc]
    have h := get_index_eval _ line (col + S.length) _ (hloopT1
      ((T.drop (startIdx (linesOf T) line)).take col ++
        (S ++ T.drop (startIdx (linesOf T) line + col))))
    rw [h]
    congr 1
    omega
  · have hkpos : 0 < S.count '\n' := Nat.pos_of_ne_zero hk
    have hmemS : '\n' ∈ S := by
      by_contra hmem
      rw [List.count_eq_zero.mpr hmem] at hkpos
      exact Nat.lt_irrefl 0 hkpos
    obtain ⟨S1, S2, hdec, hS2⟩ := decomp_last_newline S hmemS
    have hc2 : lastLineLen S = S2.length := by
      rw [hdec]
      exact lastLineLen_decomp S1 S2 hS2
    have hS1count : S1.count '\n' + 1 = S.count '\n' := by
      have h : S.count '\n' = S1.count '\n' + (S2.count '\n' + 1) := by
        rw [hdec, List.count_append, List.count_cons]
        simp
      rw [List.count_eq_zero.mpr hS2] at h
      omega
    have hSlen : S.length = S1.length + 1 + S2.length := by
      rw [hdec]
      simp
      omega
    have hupd : _get_updated_position_from_line_and_column_and_edit line col S =
        (line + S.count '\n', lastLineLen S) := by
      unfold _get_updated_position_from_line_and_column_and_edit
      rw [if_pos hkpos]
    have hins : insert_text_at_position T line col S =
        .ok (T.take (startIdx (linesOf T) line + col) ++ S ++
          T.drop (startIdx (linesOf T) line + col), line + S.count '\n', lastLineLen S) := by
      unfold insert_text_at_position
      rw [hidx, hupd]
    refine ⟨_, _, _, hins, hfindel (line + S.count '\n') (lastLineLen S) ?_⟩
    have hT1P : T.take (startIdx (linesOf T) line + col) ++ S ++
          T.drop (startIdx (linesOf T) line + col) =
        (T.take (startIdx (linesOf T) line) ++
            (T.drop (startIdx (linesOf T) line)).take col ++ S1) ++
          '\n' :: (S2 ++ T.drop (startIdx (linesOf T) line + col)) := by
      rw [hTsplit, hdec]
      simp [List.append_assoc]
    have hPcount : (T.take (startIdx (linesOf T) line) ++
        (T.drop (startIdx (linesOf T) line)).take col ++ S1).count '\n' =
        line + S1.count '\n' := by
      rw [List.count_append, List.count_append, hAcount, List.count_eq_zero.mpr hmidnl]
      omega
    have hPlen : (T.take (startIdx (linesOf T) line) ++
        (T.drop (startIdx (linesOf T) line)).take col ++ S1).length =
        startIdx (linesOf T) line + col + S1.length := by
      rw [List.length_append, List.length_append, hAlen, hmidlen]
    have hendloop : getIndexLoop
        (T.take (startIdx (linesOf T) line + col) ++ S ++
          T.drop (startIdx (linesOf T) line + col)) (line + S.count '\n') 0 =
        .ok (startIdx (linesOf T) line + col + S1.length + 1) := by
      rw [hT1P]
      have h := getIndexLoop_consume_all
        (T.take (startIdx (linesOf T) line) ++
          (T.drop (startIdx (linesOf T) line)).take col ++ S1)
        (S2 ++ T.drop (startIdx (linesOf T) line + col)) 0
      rw [hPcount, hPlen] at h
      rw [show line + S.count '\n' = line + S1.count '\n' + 1 from by omega]
      simpa using h
    have h := get_index_eval _ (line + S.count '\n') (lastLineLen S) _ hendloop
    rw [h]
    congr 1
    rw [hc2]
    omega

/-- Witness for the amended C4 at `"ab\ncd"`, position (1, 1), inserted
string `"x\ny"`. -/
theorem insert_then_delete_restores_witness :
    ∃ h1 : 1 < (linesOf "ab\ncd".toList).length,
      1 ≤ ((linesOf "ab\ncd".toList).get ⟨1, h1⟩).length ∧
      ∃ T1 l2 c2, insert_text_at_position "ab\ncd".toList 1 1 "x\ny".toList =
          .ok (T1, l2, c2) ∧
        delete_text_between_positions T1 1 1 l2 c2 = .ok ("ab\ncd".toList, "x\ny".toList) :=
  ⟨by decide, by decide,
    insert_then_delete_restores "ab\ncd".toList "x\ny".toList 1 1 (by decide) (by decide)⟩

theorem dropWhile_append_of_mem_false {α : Type} (p : α → Bool) (a b : List α)
    (h : ∃ x ∈ a, p x = false) : (a ++ b).dropWhile p = a.dropWhile p ++ b := by
  induction a with
  | nil => obtain ⟨x, hx, _⟩ := h; cases hx
  | cons c a ih =>
    by_cases hc : p c = true
    · obtain ⟨x, hx, hpx⟩ := h
      rcases List.mem_cons.mp hx with rfl | hx
      · rw [hc] at hpx; cases hpx
      · simp only [List.cons_append, List.dropWhile_cons, hc, if_true]
        exact ih ⟨x, hx, hpx⟩
    · rw [Bool.not_eq_true] at hc
      simp [List.dropWhile_cons, hc]

theorem mem_dropWhile_of_false {α : Type} (p : α → Bool) (a : List α) (x : α)
    (hx : x ∈ a) (hpx : p x = false) : x ∈ a.dropWhile p := by
  induction a with
  | nil => cases hx
  | cons c a ih =>
    by_cases hc : p c = true
    · rcases List.mem_cons.mp hx with rfl | hxa
      · rw [hc] at hpx; cases hpx
      · simp only [List.dropWhile_cons, hc, if_true]
        exact ih hxa
    · rw [Bool.not_eq_true] at hc
      simpa [List.dropWhile_cons, hc] using hx

theorem count_leading_newlines_append_newline (body : List Char)
    (h : ∃ ch ∈ body, ch ≠ '\n' ∧ ch ≠ '\r') :
    _count_leading_newlines (body ++ ['\n']) = _count_leading_newlines body := by
  induction body with
  | nil => obtain ⟨ch, hch, _⟩ := h; cases hch
  | cons c rest ih =>
    obtain ⟨ch, hch, hne⟩ := h
    simp only [List.cons_append]
    unfold _count_leading_newlines
    by_cases hc1 : c = '\n'
    · have hrest : ∃ x ∈ rest, x ≠ '\n' ∧ x ≠ '\r' := by
        rcases List.mem_cons.mp hch with rfl | hm
        · exact absurd hc1 hne.1
        · exact ⟨ch, hm, hne⟩
      simp [hc1, ih hrest]
    · by_cases hc2 : c = '\r'
      · have hrest : ∃ x ∈ rest, x ≠ '\n' ∧ x ≠ '\r' := by
          rcases List.mem_cons.mp hch with rfl | hm
          · exact absurd hc2 hne.2
          · exact ⟨ch, hm, hne⟩
        simp [hc1, hc2, ih hrest]
      · simp [hc1, hc2]

theorem lstripCRLF_append_newline (body : List Char)
    (h : ∃ ch ∈ body, ch ≠ '\n' ∧ ch ≠ '\r') :
    lstripCRLF (body ++ ['\n']) = lstripCRLF body ++ ['\n'] := by
  unfold lstripCRLF
  apply dropWhile_append_of_mem_false
  obtain ⟨ch, hch, hne1, hne2⟩ := h
  exact ⟨ch, hch, by simp [hne1, hne2]⟩

theorem rstripCRLF_append_newline (x : List Char) :
    rstripCRLF (x ++ ['\n']) = rstripCRLF x := by
  unfold rstripCRLF
  rw [List.reverse_append]
  simp [List.dropWhile_cons]

theorem rstripCRLF_replicate_append (n : Nat) (m : List Char)
    (h : ∃ ch ∈ m, ch ≠ '\n' ∧ ch ≠ '\r') :
    rstripCRLF (List.replicate n '\n' ++ m) = List.replicate n '\n' ++ rstripCRLF m := by
  unfold rstripCRLF
  rw [List.reverse_append, List.reverse_replicate]
  obtain ⟨ch, hch, hne1, hne2⟩ := h
  rw [dropWhile_append_of_mem_false _ _ _
    ⟨ch, List.mem_reverse.mpr hch, by simp [hne1, hne2]⟩]
  rw [List.reverse_append, List.reverse_replicate]

theorem padded_rstrip (n : Nat) (m : List Char)
    (h : ∃ ch ∈ m, ch ≠ '\n' ∧ ch ≠ '\r') :
    rstripCRLF (if n ≠ 0 then List.replicate n '\n' ++ m else m) ++ ['\n'] =
      List.replicate n '\n' ++ rstripCRLF m ++ ['\n'] := by
  by_cases hn : n ≠ 0
  · rw [if_pos hn, rstripCRLF_replicate_append n m h, List.append_assoc]
  · rw [if_neg hn]
    have hn0 : n = 0 := by omega
    rw [hn0]
    simp

/-- The inserted string as C6 describes it: `N` newline characters
(`N = max(leading newlines of the caller's body, policy minimum)`),
followed by the caller's body stripped of its leading newlines, with the
trailing CR/LF run collapsed to exactly one `'\n'` (one added if absent).
This definition follows the claim's words, to be compared with the
source-derived `insert_after_symbol_body`. -/
def insert_after_body_claimed (sepByEmptyLine : Bool) (body : List Char) : List Char :=
  List.replicate (max (if sepByEmptyLine then 1 else 0) (_count_leading_newlines body)) '\n' ++
    rstripCRLF (lstripCRLF body) ++ ['\n']

/-- C6 counterexample: for the caller body consisting of exactly two
newlines (and no other characters), the code's final trailing-newline
normalization erases the prepended padding: the code inserts a single
`"\n"`, whereas the claim's formula (N = max(0, 2) = 2 padding newlines,
empty stripped body, one trailing newline) yields `"\n\n\n"`. -/
theorem insert_after_body_counterexample :
    insert_after_symbol_body false "\n\n".toList = "\n".toList ∧
      insert_after_body_claimed false "\n\n".toList = "\n\n\n".toList ∧
      "\n".toList ≠ "\n\n\n".toList :=
  ⟨rfl, rfl, by decide⟩

theorem insert_after_symbol_body_eq_claimed (sep : Bool) (body : List Char)
    (h : ∃ ch ∈ body, ch ≠ '\n' ∧ ch ≠ '\r') :
    insert_after_symbol_body sep body = insert_after_body_claimed sep body := by
  obtain ⟨ch0, hch0, hne1, hne2⟩ := h
  have hstep : insert_after_symbol_body sep body =
      rstripCRLF
        (if max (if sep then 1 else 0)
            (_count_leading_newlines
              (if body.getLast? = some '\n' then body else body ++ ['\n'])) ≠ 0
         then List.replicate
            (max (if sep then 1 else 0)
              (_count_leading_newlines
                (if body.getLast? = some '\n' then body else body ++ ['\n']))) '\n' ++
           lstripCRLF (if body.getLast? = some '\n' then body else body ++ ['\n'])
         else lstripCRLF (if body.getLast? = some '\n' then body else body ++ ['\n'])) ++
        ['\n'] := rfl
  have hmem_lstrip : ch0 ∈ lstripCRLF body :=
    mem_dropWhile_of_false _ body ch0 hch0 (by simp [hne1, hne2])
  by_cases hlast : body.getLast? = some '\n'
  · rw [hstep, if_pos hlast]
    exact padded_rstrip _ (lstripCRLF body) ⟨ch0, hmem_lstrip, hne1, hne2⟩
  · rw [hstep, if_neg hlast,
      count_leading_newlines_append_newline body ⟨ch0, hch0, hne1, hne2⟩,
      lstripCRLF_append_newline body ⟨ch0, hch0, hne1, hne2⟩,
      padded_rstrip _ (lstripCRLF body ++ ['\n'])
        ⟨ch0, List.mem_append_left _ hmem_lstrip, hne1, hne2⟩,
      rstripCRLF_append_newline]
    rfl

/-- C6 (amended): for every resolved symbol and every caller body that
contains at least one character other than CR/LF, `insert_after_symbol`
inserts at column 0 of the line following the symbol's body end, and the
inserted string is exactly `N` newlines (`N = max(leading newlines of the
caller's body, 1 if the symbol kind requires blank-line separation else
0)`) followed by the caller's body stripped of leading newlines, ending in
exactly one trailing newline.  (For a body consisting solely of CR/LF
characters the final trailing-newline normalization erases the padding and
a single newline is inserted instead.) -/
theorem insert_after_symbol_normalized (st : FileState) (sym : SymbolInfo)
    (body : List Char) (h : ∃ ch ∈ body, ch ≠ '\n' ∧ ch ≠ '\r') :
    insert_after_symbol st (.ok sym) body =
      edited_file_context st fun contents =>
        (insert_text_at_position contents (sym.bodyEnd.line + 1) 0
          (insert_after_body_claimed sym.sepByEmptyLine body)).map fun r => r.1 := by
  show edited_file_context st (fun contents =>
      (insert_text_at_position contents (sym.bodyEnd.line + 1) 0
        (insert_after_symbol_body sym.sepByEmptyLine body)).map fun r => r.1) = _
  rw [insert_after_symbol_body_eq_claimed sym.sepByEmptyLine body h]

/-- Witness for the amended C6 at a concrete state, symbol and body. -/
theorem insert_after_symbol_normalized_witness :
    (∃ ch ∈ "\n\nfoo\r\n".toList, ch ≠ '\n' ∧ ch ≠ '\r') ∧
      insert_after_symbol ⟨"a\nb".toList, 0⟩ (.ok ⟨⟨0, 0⟩, ⟨0, 1⟩, true⟩) "\n\nfoo\r\n".toList =
        edited_file_context ⟨"a\nb".toList, 0⟩ fun contents =>
          (insert_text_at_position contents
            ((⟨⟨0, 0⟩, ⟨0, 1⟩, true⟩ : SymbolInfo).bodyEnd.line + 1) 0
            (insert_after_body_claimed (⟨⟨0, 0⟩, ⟨0, 1⟩, true⟩ : SymbolInfo).sepByEmptyLine
              "\n\nfoo\r\n".toList)).map fun r => r.1 :=
  ⟨⟨'f', by decide, by decide⟩,
    insert_after_symbol_normalized ⟨"a\nb".toList, 0⟩ ⟨⟨0, 0⟩, ⟨0, 1⟩, true⟩
      "\n\nfoo\r\n".toList ⟨'f', by decide, by decide⟩⟩

end Serena
